import Mathlib

/-!
# Verification of the repo-profiler core (`api/profiler.py`)

This file is a shallow embedding, in Lean 4, of the core profiling pipeline
of the repo-profiler repository: the two manifest parsers, the dependency
aggregator, the activity aggregator, the issue-health aggregator, the
contributor formatter and the health scorer, all from `src/api/profiler.py`,
together with the value records from `src/models.py`.

Modelling conventions:

* Python `int` is modelled as `ℤ`, Python `float` arithmetic as exact `ℚ`
  arithmetic, and Python's `round(x, 2)` (round-half-to-even on the scaled
  value) as `round2` below.
* Timestamps are modelled in days as integers.  The external
  `datetime.fromisoformat` library call is abstracted by the type `TimeStr`:
  `TimeStr.valid t` stands for a string that parses (after the source's
  `.replace('Z', '')` strip) to the time `t`, and `TimeStr.malformed` for a
  string on which `fromisoformat` raises `ValueError`.
* Raw records arriving from the data source are Python dicts; a possibly
  missing key is modelled as an `Option` field (`none` = key absent, so that
  subscripting raises `KeyError`).
* A Python function that can raise an uncaught exception is embedded as a
  function into `Except Unit α`; `Except.error ()` marks "an exception
  propagates to the caller".  Functions that cannot raise are embedded as
  plain total functions.
* `json.loads` is abstracted by representing the text handed to
  `parse_package_json` by its parse outcome (`PackageJsonParse` below).
-/

/-- `Dependency` model from `models.py`: a package name and version string. -/
structure Dependency where
  name : String
  version : String
deriving DecidableEq, Repr

/-- `DependencyAnalysis` model from `models.py`: one report per manifest file. -/
structure DependencyAnalysis where
  file : String
  dependencies : List Dependency
deriving DecidableEq, Repr

/-- `ActivityTrends` model from `models.py`. -/
structure ActivityTrends where
  commits_per_week_avg : ℚ
  new_issues : ℤ
  closed_issues : ℤ
deriving DecidableEq, Repr

/-- `IssueHealth` model from `models.py`. -/
structure IssueHealth where
  open_issues : ℤ
  stale_issues : ℤ
  bug_issues : ℤ
deriving DecidableEq, Repr

/-- `Contributor` model from `models.py`. -/
structure Contributor where
  username : String
  commits : ℤ
deriving DecidableEq, Repr

/-! ## Rounding

Python's `round(x, 2)` rounds `x * 100` to the nearest integer, ties to the
even integer (banker's rounding), and divides back by 100.  We model it
exactly on `ℚ`. -/

/-- Round a rational to the nearest integer, ties to even. -/
def roundHalfEven (y : ℚ) : ℤ :=
  let n := ⌊y⌋
  let f := y - n
  if f < 1/2 then n
  else if 1/2 < f then n + 1
  else if n % 2 = 0 then n else n + 1

/-- Python's `round(x, 2)`. -/
def round2 (q : ℚ) : ℚ := (roundHalfEven (q * 100) : ℚ) / 100

theorem roundHalfEven_le {y : ℚ} {m : ℤ} (h : y ≤ (m : ℚ)) : roundHalfEven y ≤ m := by
  unfold roundHalfEven
  have hfl : ⌊y⌋ ≤ m := by
    have := Int.floor_le_floor h
    simpa using this
  dsimp only
  split
  · exact hfl
  · rename_i hf
    push_neg at hf
    have hy : (⌊y⌋ : ℚ) < y := by
      by_contra hc
      push_neg at hc
      have : y - ⌊y⌋ ≤ 0 := by linarith
      linarith
    have hlt : ⌊y⌋ < m := by
      by_contra hc
      push_neg at hc
      have hm : m = ⌊y⌋ := le_antisymm hc hfl
      rw [hm] at h
      exact absurd h (not_le.mpr hy)
    split
    · omega
    · split <;> omega

theorem round2_le {q : ℚ} {m : ℤ} (h : q ≤ (m : ℚ) / 100) : round2 q ≤ (m : ℚ) / 100 := by
  unfold round2
  have hy : q * 100 ≤ (m : ℚ) := by linarith
  have hr := roundHalfEven_le hy
  have hr' : (roundHalfEven (q * 100) : ℚ) ≤ (m : ℚ) := by exact_mod_cast hr
  linarith

theorem round2_zero : round2 0 = 0 := by
  unfold round2 roundHalfEven
  norm_num

/-! ## Manifest parsers (`parse_requirements_txt`)

The line-oriented parser.  `re.match(r'^([\w\-]+)(?:[=~>]{1,2}([\w\.]+))?', line)`
is embedded as the scanner `matchDep` below: a maximal run of name characters,
then optionally one or two operator characters followed by a non-empty maximal
run of version characters.  Note the operator class in the source is exactly
`[=~>]`: it contains `=`, `~` and `>` but not `<`. -/

/-- A character matched by `[\w\-]` (ASCII fragment of `\w` plus hyphen). -/
def isNameChar (c : Char) : Bool := c.isAlphanum || c = '_' || c = '-'

/-- A character matched by the source's operator class `[=~>]`. -/
def isOpChar (c : Char) : Bool := c = '=' || c = '~' || c = '>'

/-- A character matched by `[\w\.]` (ASCII fragment of `\w` plus dot). -/
def isVerChar (c : Char) : Bool := c.isAlphanum || c = '_' || c = '.'

/-- Embedding of `re.match(r'^([\w\-]+)(?:[=~>]{1,2}([\w\.]+))?', line)`
followed by the source's `version if version else "latest"` defaulting.
Returns `none` when the regex does not match (line silently skipped).
The optional group participates exactly when one or two operator characters
are followed by at least one version character; with three or more operator
characters in a row the group cannot match (the regex takes at most two and
then finds another operator character where the version must start), and the
engine falls back to not matching the optional group at all. -/
def matchDep (cs : List Char) : Option Dependency :=
  let name := cs.takeWhile isNameChar
  if name.isEmpty then none
  else
    let rest := cs.drop name.length
    let ops := rest.takeWhile isOpChar
    let ver := (rest.drop ops.length).takeWhile isVerChar
    if (ops.length = 1 || ops.length = 2) && !ver.isEmpty then
      some ⟨name.asString, ver.asString⟩
    else
      some ⟨name.asString, "latest"⟩

/-- Python's `str.strip()` on a list of characters. -/
def stripChars (cs : List Char) : List Char :=
  ((cs.dropWhile Char.isWhitespace).reverse.dropWhile Char.isWhitespace).reverse

/-- The body of the `for line in lines` loop of `parse_requirements_txt`:
strip the line, skip it when empty or a `#` comment, otherwise run the regex. -/
def processLine (line : List Char) : Option Dependency :=
  let l := stripChars line
  if l.isEmpty then none
  else if l.head? = some '#' then none
  else matchDep l

/-- `parse_requirements_txt` from `profiler.py`: split the content on
newlines and collect the dependency produced by each line. -/
def parse_requirements_txt (file_content : List Char) : List Dependency :=
  (file_content.splitOn '\n').filterMap processLine

/-! ## Manifest parsers (`parse_package_json`) -/

/-- A JSON value sitting in the `"dependencies"` or `"devDependencies"`
field of the parsed object: `mapping` is a JSON object read as a
name → version mapping (a field that is absent behaves as the empty mapping,
matching `data.get(..., {})`); `nonMapping` is any other JSON value (number,
string, array, boolean, null), on which the dict merge `{**deps, **dev_deps}`
raises an uncaught `TypeError`. -/
inductive JsonField where
  | mapping (entries : List (String × String))
  | nonMapping
deriving DecidableEq, Repr

/-- The outcome of `json.loads` on the text handed to `parse_package_json`,
abstracting the external json library: `failure` stands for any text on which
`json.loads` raises `JSONDecodeError` (such as `"{not json"`); `nonObject`
for a text parsing to a valid JSON value that is not an object (such as
`"[1, 2]"`), on which `data.get` raises an uncaught `AttributeError`; and
`object deps devDeps` for a text parsing to a JSON object with the given two
dependency fields. -/
inductive PackageJsonParse where
  | failure
  | nonObject
  | object (dependencies devDependencies : JsonField)
deriving DecidableEq, Repr

/-- Lookup in a Python dict modelled as an association list. -/
def dictLookup (k : String) : List (String × String) → Option String
  | [] => none
  | p :: rest => if p.1 = k then some p.2 else dictLookup k rest

/-- Python's `{**d, **e}` for dicts modelled as association lists with
distinct keys: keys of `d` keep their position, with the value overridden by
`e` where present; keys only in `e` are appended in `e`'s order. -/
def dictMerge (d e : List (String × String)) : List (String × String) :=
  (d.map fun p => match dictLookup p.1 e with
    | some v => (p.1, v)
    | none => p) ++ e.filter fun p => (dictLookup p.1 d).isNone

/-- `parse_package_json` from `profiler.py`.  Only `json.JSONDecodeError` is
caught (the empty list is returned); a valid non-object document raises an
uncaught `AttributeError` at `data.get`, and a non-mapping dependency field
raises an uncaught `TypeError` at `{**deps, **dev_deps}` — both propagate to
the caller.  On an object with two mapping fields they are merged and each
merged entry becomes a `Dependency`. -/
def parse_package_json : PackageJsonParse → Except Unit (List Dependency)
  | .failure => .ok []
  | .nonObject => .error ()
  | .object (.mapping deps) (.mapping devDeps) =>
      .ok ((dictMerge deps devDeps).map fun p => ⟨p.1, p.2⟩)
  | .object _ _ => .error ()

/-- A structured-manifest parse outcome on which `parse_package_json` raises
nothing: either the json parse failed (the caught case), or it produced an
object both of whose dependency fields are mappings. -/
def wellShapedJson : PackageJsonParse → Bool
  | .failure => true
  | .nonObject => false
  | .object (.mapping _) (.mapping _) => true
  | .object _ _ => false

/-! ## Dependency aggregator (`analyze_dependencies`) -/

/-- The `file_contents` dict restricted to the two filenames the aggregator
recognizes; any other key present in the Python dict is never read, so it is
not modelled.  `none` means the key is absent. -/
structure FileContents where
  requirements_txt : Option (List Char)
  package_json : Option PackageJsonParse

/-- The `requirements.txt` part of `analyze_dependencies`: parse when
present and keep the report only when the parse is non-empty.  This step is
total (the line parser cannot raise). -/
def requirementsReports (rt : Option (List Char)) : List DependencyAnalysis :=
  match rt with
  | some content =>
    let deps := parse_requirements_txt content
    if deps.isEmpty then [] else [⟨"requirements.txt", deps⟩]
  | none => []

/-- `analyze_dependencies` from `profiler.py`: for each recognized manifest
present, parse it and append a report when the parse is non-empty;
`requirements.txt` is processed before `package.json`, and an exception
raised by `parse_package_json` propagates out of the aggregator (the
requirements step is pure, so forcing it before or after the raising parse
is unobservable). -/
def analyze_dependencies (file_contents : FileContents) :
    Except Unit (List DependencyAnalysis) :=
  match file_contents.package_json with
  | some content =>
    match parse_package_json content with
    | .error e => .error e
    | .ok deps =>
      .ok (requirementsReports file_contents.requirements_txt ++
        if deps.isEmpty then [] else [⟨"package.json", deps⟩])
  | none => .ok (requirementsReports file_contents.requirements_txt)

/-! ## Raw records from the data source

Issue records, contributor records and commit-activity records are Python
dicts; the aggregators subscript them directly, so a missing key raises
`KeyError` and a timestamp that `datetime.fromisoformat` rejects raises
`ValueError`.  Both kinds of propagated exception are modelled as
`Except.error ()`. -/

/-- A timestamp string, abstracted by its parse outcome: `valid t` parses
(after stripping a trailing `Z`) to the time `t` (measured in days),
`malformed` makes `datetime.fromisoformat` raise. -/
inductive TimeStr where
  | valid (t : ℤ)
  | malformed
deriving DecidableEq, Repr

/-- `datetime.fromisoformat(s.replace('Z', ''))` on an abstracted timestamp. -/
def fromiso : TimeStr → Except Unit ℤ
  | .valid t => .ok t
  | .malformed => .error ()

/-- A raw label record (`{'name': ...}`); `none` means the `name` key is
absent. -/
structure RawLabel where
  name : Option String
deriving DecidableEq, Repr

/-- A raw issue record as subscripted by the aggregators.  Each field is the
corresponding dict entry; the outer `Option` is key presence.  For
`closed_at` the inner `Option` distinguishes JSON `null` (falsy, `none`) from
an actual timestamp string. -/
structure RawIssue where
  state : Option String
  created_at : Option TimeStr
  closed_at : Option (Option TimeStr)
  updated_at : Option TimeStr
  labels : Option (List RawLabel)
deriving DecidableEq, Repr

/-- A raw entry of the 52-week commit-activity histogram; only its `total`
field is read. -/
structure CommitWeek where
  total : ℤ
deriving DecidableEq, Repr

/-- A raw contributor record; `none` models a missing key. -/
structure RawContributor where
  login : Option String
  contributions : Option ℤ
deriving DecidableEq, Repr

/-! ## Activity aggregator (`calculate_activity_trends`) -/

/-- The issue loop of `calculate_activity_trends`: counts issues created in
the last 30 days and issues closed in the last 30 days.  Subscripting a
missing key or parsing a malformed timestamp raises. -/
def issueCounts (now : ℤ) : List RawIssue → Except Unit (ℤ × ℤ)
  | [] => .ok (0, 0)
  | issue :: rest =>
    match issue.created_at with
    | none => .error ()
    | some created_str =>
      match fromiso created_str with
      | .error e => .error e
      | .ok created_at =>
        let newInc : ℤ := if now - 30 < created_at then 1 else 0
        match issue.closed_at with
        | none => .error ()
        | some closed_val =>
          match (match closed_val with
                 | none => Except.ok (0 : ℤ)
                 | some closed_str =>
                   match fromiso closed_str with
                   | .error e => .error e
                   | .ok closed_at => .ok (if now - 30 < closed_at then 1 else 0)) with
          | .error e => .error e
          | .ok closedInc =>
            match issueCounts now rest with
            | .error e => .error e
            | .ok (n, c) => .ok (newInc + n, closedInc + c)

/-- `calculate_activity_trends` from `profiler.py`.  `now` is the value of
`datetime.utcnow()` at the moment of computation.  The average divides the
summed weekly totals by the fixed constant 52 whenever the histogram is
non-empty, and is 0 for an empty histogram. -/
def calculate_activity_trends (now : ℤ) (commit_activity : List CommitWeek)
    (issues_list : List RawIssue) : Except Unit ActivityTrends :=
  let total_commits : ℤ := (commit_activity.map CommitWeek.total).sum
  let avg_commits : ℚ := if commit_activity.isEmpty then 0 else (total_commits : ℚ) / 52
  match issueCounts now issues_list with
  | .error e => .error e
  | .ok (n, c) => .ok ⟨round2 avg_commits, n, c⟩

/-! ## Issue-health aggregator (`analyze_issue_health`) -/

/-- Substring containment on character lists (Python's `in` on strings). -/
def containsSubstrChars (pat : List Char) : List Char → Bool
  | [] => pat.isEmpty
  | c :: rest => pat.isPrefixOf (c :: rest) || containsSubstrChars pat rest

/-- `'bug' in name.lower()` from the label loop (lower-casing applied per
character). -/
def containsBug (nm : String) : Bool :=
  containsSubstrChars "bug".toList (nm.toList.map Char.toLower)

/-- The label loop: `for label in issue['labels']: if 'bug' in
label['name'].lower(): count += 1; break`.  Returns the increment (0 or 1)
added to the bug counter, raising on the first label whose `name` key is
missing before a match is found. -/
def bugLabelInc : List RawLabel → Except Unit ℤ
  | [] => .ok 0
  | l :: rest =>
    match l.name with
    | none => .error ()
    | some nm => if containsBug nm then .ok 1 else bugLabelInc rest

/-- The issue loop of `analyze_issue_health`, returning
(open count, stale count, bug count).  For a non-open issue only the `state`
key is read; for an open issue the update timestamp is parsed and the labels
scanned. -/
def healthCounts (now : ℤ) : List RawIssue → Except Unit (ℤ × ℤ × ℤ)
  | [] => .ok (0, 0, 0)
  | issue :: rest =>
    match issue.state with
    | none => .error ()
    | some s =>
      if s = "open" then
        match issue.updated_at with
        | none => .error ()
        | some updated_str =>
          match fromiso updated_str with
          | .error e => .error e
          | .ok updated_at =>
            let staleInc : ℤ := if updated_at < now - 90 then 1 else 0
            match issue.labels with
            | none => .error ()
            | some labels =>
              match bugLabelInc labels with
              | .error e => .error e
              | .ok bugInc =>
                match healthCounts now rest with
                | .error e => .error e
                | .ok (o, st, b) => .ok (1 + o, staleInc + st, bugInc + b)
      else healthCounts now rest

/-- `analyze_issue_health` from `profiler.py`. -/
def analyze_issue_health (now : ℤ) (issues_list : List RawIssue) :
    Except Unit IssueHealth :=
  match healthCounts now issues_list with
  | .error e => .error e
  | .ok (o, st, b) => .ok ⟨o, st, b⟩

/-! ## Contributor formatter (`format_contributors`) -/

/-- The loop of `format_contributors`: project each raw record to
`Contributor`, raising on a missing `login` or `contributions` key. -/
def formatLoop : List RawContributor → Except Unit (List Contributor)
  | [] => .ok []
  | contrib :: rest =>
    match contrib.login, contrib.contributions with
    | some l, some n =>
      match formatLoop rest with
      | .error e => .error e
      | .ok cs => .ok (⟨l, n⟩ :: cs)
    | _, _ => .error ()

/-- `format_contributors` from `profiler.py`: the loop runs over
`contrib_data[:5]`, the first five raw records. -/
def format_contributors (contrib_data : List RawContributor) :
    Except Unit (List Contributor) :=
  formatLoop (contrib_data.take 5)

/-! ## Well-formed raw records

The sufficient conditions under which the aggregators are proved not to
raise: every dict key the loops subscript is present, and every timestamp
they parse is valid. -/

/-- A present, parseable timestamp field. -/
def wellFormedTime : Option TimeStr → Bool
  | some (.valid _) => true
  | _ => false

/-- A present `closed_at` field: either JSON `null` or a parseable
timestamp. -/
def wellFormedClosed : Option (Option TimeStr) → Bool
  | some none => true
  | some (some (.valid _)) => true
  | _ => false

/-- An issue record on which neither aggregator loop raises: all subscripted
keys present, all parsed timestamps valid, all labels carrying a name. -/
def wellFormedIssue (i : RawIssue) : Bool :=
  i.state.isSome && wellFormedTime i.created_at && wellFormedClosed i.closed_at &&
    wellFormedTime i.updated_at &&
    (match i.labels with
     | some ls => ls.all fun l => l.name.isSome
     | none => false)

/-! ## Health scorer (`calculate_health_score`) -/

/-- The `repo_data` dict as read by the scorer.  `pushed_at` is `none` when
the key is absent (subscripting raises `KeyError`, caught by the
`try/except`).  `stargazers_count` is read with `.get(..., 0)`.  `license` is
`none` when absent or JSON `null` (falsy); its value is otherwise unused.
`description` is `none` when absent or `null`; note that the empty string is
also falsy in Python, which the scorer's `if not ...` check relies on. -/
structure RepoData where
  pushed_at : Option TimeStr
  stargazers_count : Option ℤ
  license : Option Unit
  description : Option String
deriving DecidableEq, Repr

/-- Python's `/` on numbers: raises `ZeroDivisionError` on a zero
denominator. -/
def pyDiv (a b : ℚ) : Except Unit ℚ :=
  if b = 0 then .error () else .ok (a / b)

/-- The penalty for the last-push age: inside the `try`, a missing
`pushed_at` key or a malformed timestamp raises, and the `except` clause
applies the same 10-point penalty as a push older than 90 days. -/
def pushPenalty (now : ℤ) (repo : RepoData) : ℚ :=
  match repo.pushed_at with
  | some (.valid t) => if t < now - 90 then 10 else 0
  | _ => 10

/-- The commit-activity penalty (`if avg < 1 ... elif avg < 5 ...`). -/
def commitPenalty (activity : ActivityTrends) : ℚ :=
  if activity.commits_per_week_avg < 1 then 20
  else if activity.commits_per_week_avg < 5 then 10
  else 0

/-- The three metadata penalties: stars below 100, missing license, missing
or empty description. -/
def metadataPenalty (repo : RepoData) : ℚ :=
  (if repo.stargazers_count.getD 0 < 100 then 10 else 0) +
  (if repo.license.isNone then 10 else 0) +
  (if repo.description.getD "" = "" then 10 else 0)

/-- The score before the final `max(0.0, round(score, 2))`, with Python
division semantics: the two proportional issue penalties are computed only
when `open_issues > 0`. -/
def rawScore (now : ℤ) (repo : RepoData) (activity : ActivityTrends)
    (issues : IssueHealth) : Except Unit ℚ :=
  let base := 100 - pushPenalty now repo - commitPenalty activity
  if issues.open_issues > 0 then
    match pyDiv (issues.stale_issues : ℚ) (issues.open_issues : ℚ) with
    | .error e => .error e
    | .ok stale_ratio =>
      match pyDiv (issues.bug_issues : ℚ) (issues.open_issues : ℚ) with
      | .error e => .error e
      | .ok bug_ratio =>
        .ok (base - stale_ratio * 20 - bug_ratio * 20 - metadataPenalty repo)
  else
    .ok (base - metadataPenalty repo)

/-- `calculate_health_score` from `profiler.py`: the raw penalized score,
then `max(0.0, round(score, 2))`. -/
def calculate_health_score (now : ℤ) (repo : RepoData) (activity : ActivityTrends)
    (issues : IssueHealth) : Except Unit ℚ :=
  match rawScore now repo activity issues with
  | .error e => .error e
  | .ok s => .ok (max 0 (round2 s))

/-- The value of the raw score, as a total function (the guard
`open_issues > 0` ensures the divisions in `rawScore` never see a zero
denominator, so `rawScore` always returns `Except.ok` of this value; proved
in `rawScore_eq_ok`). -/
def rawVal (now : ℤ) (repo : RepoData) (activity : ActivityTrends)
    (issues : IssueHealth) : ℚ :=
  let base := 100 - pushPenalty now repo - commitPenalty activity
  if issues.open_issues > 0 then
    base - (issues.stale_issues : ℚ) / (issues.open_issues : ℚ) * 20
      - (issues.bug_issues : ℚ) / (issues.open_issues : ℚ) * 20
      - metadataPenalty repo
  else
    base - metadataPenalty repo

/-- The value `calculate_health_score` always returns. -/
def scoreVal (now : ℤ) (repo : RepoData) (activity : ActivityTrends)
    (issues : IssueHealth) : ℚ :=
  max 0 (round2 (rawVal now repo activity issues))

theorem rawScore_eq_ok (now : ℤ) (repo : RepoData) (activity : ActivityTrends)
    (issues : IssueHealth) :
    rawScore now repo activity issues = .ok (rawVal now repo activity issues) := by
  unfold rawScore rawVal
  by_cases h : issues.open_issues > 0
  · have hne : ((issues.open_issues : ℚ)) ≠ 0 := by
      exact_mod_cast Int.ne_of_gt h
    simp [h, pyDiv, hne]
  · simp [h]

theorem calculate_health_score_eq_ok (now : ℤ) (repo : RepoData)
    (activity : ActivityTrends) (issues : IssueHealth) :
    calculate_health_score now repo activity issues =
      .ok (scoreVal now repo activity issues) := by
  unfold calculate_health_score scoreVal
  rw [rawScore_eq_ok]

/-! ## Claim theorems -/

/-- C5: for every input text that is not a well-formed structured document
(i.e. every text on which the json parse fails, such as `"{not json"`),
`parse_package_json` returns the empty dependency list and raises nothing to
its caller: the `JSONDecodeError` branch is caught inside the function and
yields a normal (`Except.ok`) empty result. -/
theorem parse_package_json_malformed_empty :
    parse_package_json PackageJsonParse.failure = .ok [] := rfl

/-- C7: for every weekly commit-total sequence, `commitsPerWeekAvg` is the
sum of the totals divided by the fixed constant 52 (never by the sequence
length), rounded to 2 decimals; and on the empty histogram together with the
empty issue list the aggregator returns `ActivityTrends(0.0, 0, 0)` rather
than an error. -/
theorem calculate_activity_trends_fixed_divisor :
    (∀ (now : ℤ) (ca : List CommitWeek) (issues : List RawIssue) (r : ActivityTrends),
      calculate_activity_trends now ca issues = .ok r →
      r.commits_per_week_avg = round2 (((ca.map CommitWeek.total).sum : ℚ) / 52)) ∧
    (∀ now : ℤ, calculate_activity_trends now [] [] = .ok ⟨0, 0, 0⟩) := by
  constructor
  · intro now ca issues r h
    unfold calculate_activity_trends at h
    cases hc : issueCounts now issues with
    | error e => rw [hc] at h; exact absurd h (by simp)
    | ok p =>
      obtain ⟨n, c⟩ := p
      rw [hc] at h
      simp only [Except.ok.injEq] at h
      subst h
      cases ca with
      | nil => simp [round2_zero]
      | cons w ws => simp
  · intro now
    simp [calculate_activity_trends, issueCounts, round2_zero]

/-- C7 witness: the first part of the theorem applied to the concrete run on
an empty histogram and empty issue list. -/
theorem calculate_activity_trends_fixed_divisor_witness :
    (⟨0, 0, 0⟩ : ActivityTrends).commits_per_week_avg =
      round2 (((([] : List CommitWeek).map CommitWeek.total).sum : ℚ) / 52) :=
  calculate_activity_trends_fixed_divisor.1 0 [] [] ⟨0, 0, 0⟩
    (calculate_activity_trends_fixed_divisor.2 0)

theorem requirementsReports_mem (rt : Option (List Char)) (r : DependencyAnalysis)
    (hr : r ∈ requirementsReports rt) :
    r.dependencies ≠ [] ∧ r.file = "requirements.txt" := by
  cases rt with
  | none => simp [requirementsReports] at hr
  | some content =>
    dsimp only [requirementsReports] at hr
    by_cases hd : (parse_requirements_txt content).isEmpty
    · rw [if_pos hd] at hr; simp at hr
    · rw [if_neg hd] at hr
      simp at hr
      subst hr
      refine ⟨?_, rfl⟩
      simpa [List.isEmpty_iff] using hd

theorem requirementsReports_empty (content : List Char)
    (hp : parse_requirements_txt content = []) :
    requirementsReports (some content) = [] := by
  simp [requirementsReports, hp]

/-- C9: every report in any list the dependency aggregator returns carries a
non-empty dependency list, and a recognized manifest whose content parses to
zero dependencies contributes no report. -/
theorem analyze_dependencies_reports_nonempty (fc : FileContents) :
    (∀ reports, analyze_dependencies fc = .ok reports →
      ∀ r ∈ reports, r.dependencies ≠ []) ∧
    (∀ content reports, fc.requirements_txt = some content →
      parse_requirements_txt content = [] →
      analyze_dependencies fc = .ok reports →
      ∀ r ∈ reports, r.file ≠ "requirements.txt") ∧
    (∀ content reports, fc.package_json = some content →
      parse_package_json content = .ok [] →
      analyze_dependencies fc = .ok reports →
      ∀ r ∈ reports, r.file ≠ "package.json") := by
  obtain ⟨rt, pj⟩ := fc
  refine ⟨?_, ?_, ?_⟩
  · intro reports hrep r hr
    unfold analyze_dependencies at hrep
    cases pj with
    | none =>
      simp only [Except.ok.injEq] at hrep
      subst hrep
      exact (requirementsReports_mem rt r hr).1
    | some content =>
      dsimp only at hrep
      cases hp : parse_package_json content with
      | error e => rw [hp] at hrep; simp at hrep
      | ok deps =>
        rw [hp] at hrep
        simp only [Except.ok.injEq] at hrep
        subst hrep
        rcases List.mem_append.mp hr with h | h
        · exact (requirementsReports_mem rt r h).1
        · by_cases hd : deps.isEmpty
          · rw [if_pos hd] at h; simp at h
          · rw [if_neg hd] at h
            simp at h
            subst h
            simpa [List.isEmpty_iff] using hd
  · intro content reports hc hp hrep r hr
    subst hc
    unfold analyze_dependencies at hrep
    cases pj with
    | none =>
      simp only [Except.ok.injEq] at hrep
      subst hrep
      rw [requirementsReports_empty content hp] at hr
      simp at hr
    | some pcontent =>
      dsimp only at hrep
      cases hpp : parse_package_json pcontent with
      | error e => rw [hpp] at hrep; simp at hrep
      | ok deps =>
        rw [hpp] at hrep
        simp only [Except.ok.injEq] at hrep
        subst hrep
        rw [requirementsReports_empty content hp] at hr
        simp only [List.nil_append] at hr
        by_cases hd : deps.isEmpty
        · rw [if_pos hd] at hr; simp at hr
        · rw [if_neg hd] at hr
          simp at hr
          subst hr
          simp
  · intro content reports hc hp hrep r hr
    subst hc
    unfold analyze_dependencies at hrep
    dsimp only at hrep
    rw [hp] at hrep
    simp only [Except.ok.injEq] at hrep
    subst hrep
    rcases List.mem_append.mp hr with h | h
    · rw [(requirementsReports_mem rt r h).2]
      simp
    · simp at h

/-- C9 witness: the theorem applied to a concrete input holding one
requirements manifest with a single dependency. -/
theorem analyze_dependencies_reports_nonempty_witness :
    (⟨"requirements.txt", [⟨"flask", "1.0"⟩]⟩ : DependencyAnalysis).dependencies ≠ [] :=
  (analyze_dependencies_reports_nonempty ⟨some "flask==1.0".toList, none⟩).1
    [⟨"requirements.txt", [⟨"flask", "1.0"⟩]⟩] rfl
    ⟨"requirements.txt", [⟨"flask", "1.0"⟩]⟩ (by decide)

/-- C2: when `openIssues = 0` the health scorer raises no division error —
it returns `Except.ok` of its value — and the two proportional penalties are
skipped entirely, so the result does not depend on the `staleIssues` and
`bugIssues` values at all. -/
theorem health_score_zero_open_issues (now : ℤ) (repo : RepoData)
    (activity : ActivityTrends) (issues : IssueHealth)
    (h : issues.open_issues = 0) :
    calculate_health_score now repo activity issues =
      .ok (scoreVal now repo activity issues) ∧
    ∀ s' b' : ℤ, calculate_health_score now repo activity issues =
      calculate_health_score now repo activity ⟨0, s', b'⟩ := by
  refine ⟨calculate_health_score_eq_ok now repo activity issues, ?_⟩
  intro s' b'
  rw [calculate_health_score_eq_ok, calculate_health_score_eq_ok]
  unfold scoreVal rawVal
  rw [h]
  norm_num

/-- C2 witness: the theorem applied at a concrete input with
`openIssues = 0` and nonzero (invariant-violating) stale and bug counts. -/
theorem health_score_zero_open_issues_witness :
    calculate_health_score 0 ⟨none, none, none, none⟩ ⟨0, 0, 0⟩ ⟨0, 7, 9⟩ =
      calculate_health_score 0 ⟨none, none, none, none⟩ ⟨0, 0, 0⟩ ⟨0, 0, 0⟩ :=
  (health_score_zero_open_issues 0 ⟨none, none, none, none⟩ ⟨0, 0, 0⟩ ⟨0, 7, 9⟩ rfl).2 0 0

theorem pushPenalty_nonneg (now : ℤ) (repo : RepoData) : 0 ≤ pushPenalty now repo := by
  unfold pushPenalty
  rcases repo.pushed_at with _ | ts
  · norm_num
  · rcases ts with t | _
    · dsimp only; split <;> norm_num
    · norm_num

theorem commitPenalty_nonneg (activity : ActivityTrends) : 0 ≤ commitPenalty activity := by
  unfold commitPenalty
  split_ifs <;> norm_num

theorem metadataPenalty_nonneg (repo : RepoData) : 0 ≤ metadataPenalty repo := by
  unfold metadataPenalty
  split_ifs <;> norm_num

theorem rawVal_le_100 (now : ℤ) (repo : RepoData) (activity : ActivityTrends)
    (issues : IssueHealth) (hst : 0 ≤ issues.stale_issues) (hb : 0 ≤ issues.bug_issues) :
    rawVal now repo activity issues ≤ 100 := by
  have h1 := pushPenalty_nonneg now repo
  have h2 := commitPenalty_nonneg activity
  have h3 := metadataPenalty_nonneg repo
  unfold rawVal
  by_cases h : issues.open_issues > 0
  · rw [if_pos h]
    have ho : (0 : ℚ) ≤ (issues.open_issues : ℚ) := by positivity
    have hr1 : (0 : ℚ) ≤ (issues.stale_issues : ℚ) / (issues.open_issues : ℚ) :=
      div_nonneg (by exact_mod_cast hst) ho
    have hr2 : (0 : ℚ) ≤ (issues.bug_issues : ℚ) / (issues.open_issues : ℚ) :=
      div_nonneg (by exact_mod_cast hb) ho
    nlinarith
  · rw [if_neg h]
    linarith

/-- C3: the health score always lies in `[0, 100]` when the issue counters
satisfy the `IssueHealth` invariants and the commit average is non-negative,
and it is always an exact multiple of `1/100` (rounded to 2 decimals); an
input whose raw penalized score is negative yields exactly `0`; and clamping
applies only at the floor: whenever the rounded raw score is non-negative it
is returned unchanged, with no cap at 100. -/
theorem health_score_bounded (now : ℤ) (repo : RepoData) (activity : ActivityTrends)
    (issues : IssueHealth) :
    calculate_health_score now repo activity issues =
      .ok (scoreVal now repo activity issues) ∧
    (0 ≤ issues.open_issues → 0 ≤ issues.stale_issues →
     issues.stale_issues ≤ issues.open_issues → 0 ≤ issues.bug_issues →
     issues.bug_issues ≤ issues.open_issues → 0 ≤ activity.commits_per_week_avg →
      0 ≤ scoreVal now repo activity issues ∧
      scoreVal now repo activity issues ≤ 100 ∧
      ∃ n : ℤ, scoreVal now repo activity issues = (n : ℚ) / 100) ∧
    (rawVal now repo activity issues < 0 → scoreVal now repo activity issues = 0) ∧
    (0 ≤ round2 (rawVal now repo activity issues) →
      scoreVal now repo activity issues = round2 (rawVal now repo activity issues)) := by
  refine ⟨calculate_health_score_eq_ok now repo activity issues, ?_, ?_, ?_⟩
  · intro _ hst hso hb hbo _
    refine ⟨le_max_left 0 _, ?_, ?_⟩
    · have hraw : rawVal now repo activity issues ≤ ((10000 : ℤ) : ℚ) / 100 := by
        have := rawVal_le_100 now repo activity issues hst hb
        push_cast
        linarith
      have hr := round2_le hraw
      have h100 : ((10000 : ℤ) : ℚ) / 100 = 100 := by norm_num
      rw [h100] at hr
      exact max_le (by norm_num) hr
    · by_cases h0 : 0 ≤ round2 (rawVal now repo activity issues)
      · refine ⟨roundHalfEven (rawVal now repo activity issues * 100), ?_⟩
        rw [scoreVal, max_eq_right h0, round2]
      · refine ⟨0, ?_⟩
        rw [scoreVal, max_eq_left (le_of_not_le h0)]
        norm_num
  · intro hneg
    have hle : rawVal now repo activity issues ≤ ((0 : ℤ) : ℚ) / 100 := by
      push_cast
      linarith
    have h2 : round2 (rawVal now repo activity issues) ≤ 0 := by
      simpa using round2_le hle
    rw [scoreVal, max_eq_left h2]
  · intro h0
    rw [scoreVal, max_eq_right h0]

/-- C3 witness: the theorem applied at three concrete inputs — one with
invariant-satisfying counters (bounds and 2-decimal form), one whose raw
score is negative (floored to exactly 0), and one whose rounded raw score is
non-negative (returned without any upper clamp). -/
theorem health_score_bounded_witness :
    (0 ≤ scoreVal 0 ⟨none, none, none, none⟩ ⟨0, 0, 0⟩ ⟨0, 0, 0⟩ ∧
     scoreVal 0 ⟨none, none, none, none⟩ ⟨0, 0, 0⟩ ⟨0, 0, 0⟩ ≤ 100 ∧
     ∃ n : ℤ, scoreVal 0 ⟨none, none, none, none⟩ ⟨0, 0, 0⟩ ⟨0, 0, 0⟩ = (n : ℚ) / 100) ∧
    scoreVal 0 ⟨none, none, none, none⟩ ⟨0, 0, 0⟩ ⟨1, 3, 3⟩ = 0 ∧
    scoreVal 0 ⟨some (.valid 0), some 1000, some (), none⟩ ⟨10, 0, 0⟩ ⟨0, 0, 0⟩ =
      round2 (rawVal 0 ⟨some (.valid 0), some 1000, some (), none⟩ ⟨10, 0, 0⟩ ⟨0, 0, 0⟩) := by
  refine ⟨(health_score_bounded 0 ⟨none, none, none, none⟩ ⟨0, 0, 0⟩ ⟨0, 0, 0⟩).2.1
      (by norm_num) (by norm_num) (by norm_num) (by norm_num) (by norm_num) (by norm_num),
    (health_score_bounded 0 ⟨none, none, none, none⟩ ⟨0, 0, 0⟩ ⟨1, 3, 3⟩).2.2.1 ?_,
    (health_score_bounded 0 ⟨some (.valid 0), some 1000, some (), none⟩
        ⟨10, 0, 0⟩ ⟨0, 0, 0⟩).2.2.2 ?_⟩
  · norm_num [rawVal, pushPenalty, commitPenalty, metadataPenalty]
  · norm_num [round2, roundHalfEven, rawVal, pushPenalty, commitPenalty, metadataPenalty]

theorem bugLabelInc_le_one {ls : List RawLabel} {b : ℤ} (h : bugLabelInc ls = .ok b) :
    b = 0 ∨ b = 1 := by
  induction ls with
  | nil =>
    simp only [bugLabelInc, Except.ok.injEq] at h
    omega
  | cons l rest ih =>
    simp only [bugLabelInc] at h
    cases hn : l.name with
    | none => rw [hn] at h; simp at h
    | some nm =>
      rw [hn] at h
      dsimp only at h
      by_cases hb : containsBug nm
      · rw [if_pos hb] at h
        simp only [Except.ok.injEq] at h
        omega
      · rw [if_neg hb] at h
        exact ih h

theorem healthCounts_bounds (now : ℤ) :
    ∀ (issues : List RawIssue) (o st b : ℤ),
      healthCounts now issues = .ok (o, st, b) →
      0 ≤ st ∧ st ≤ o ∧ 0 ≤ b ∧ b ≤ o := by
  intro issues
  induction issues with
  | nil =>
    intro o st b h
    simp only [healthCounts, Except.ok.injEq, Prod.mk.injEq] at h
    obtain ⟨h1, h2, h3⟩ := h
    omega
  | cons i rest ih =>
    intro o st b h
    simp only [healthCounts] at h
    cases hs : i.state with
    | none => rw [hs] at h; simp at h
    | some s =>
      rw [hs] at h
      dsimp only at h
      by_cases hopen : s = "open"
      · rw [if_pos hopen] at h
        cases hu : i.updated_at with
        | none => rw [hu] at h; simp at h
        | some ts =>
          rw [hu] at h
          dsimp only at h
          cases hf : fromiso ts with
          | error e => rw [hf] at h; simp at h
          | ok u =>
            rw [hf] at h
            dsimp only at h
            cases hl : i.labels with
            | none => rw [hl] at h; simp at h
            | some labels =>
              rw [hl] at h
              dsimp only at h
              cases hbl : bugLabelInc labels with
              | error e => rw [hbl] at h; simp at h
              | ok bugInc =>
                rw [hbl] at h
                dsimp only at h
                cases hr : healthCounts now rest with
                | error e => rw [hr] at h; simp at h
                | ok p =>
                  obtain ⟨o', st', b'⟩ := p
                  rw [hr] at h
                  simp only [Except.ok.injEq, Prod.mk.injEq] at h
                  obtain ⟨ho, hst, hb⟩ := h
                  have hih := ih o' st' b' hr
                  have hbug := bugLabelInc_le_one hbl
                  have hstale : (0 : ℤ) ≤ (if u < now - 90 then (1 : ℤ) else 0) ∧
                      (if u < now - 90 then (1 : ℤ) else 0) ≤ 1 := by
                    split <;> omega
                  omega
      · rw [if_neg hopen] at h
        exact ih o st b h

theorem healthCounts_skip_non_open (now : ℤ) (i : RawIssue) (s : String)
    (hi : i.state = some s) (hs : s ≠ "open") :
    ∀ xs ys, healthCounts now (xs ++ i :: ys) = healthCounts now (xs ++ ys) := by
  intro xs
  induction xs with
  | nil =>
    intro ys
    simp only [List.nil_append, healthCounts, hi]
    rw [if_neg hs]
  | cons x xs ih =>
    intro ys
    simp only [List.cons_append, healthCounts, List.append_eq]
    rw [ih ys]

/-- C8: any `IssueHealth` the aggregator returns satisfies
`0 ≤ staleIssues ≤ openIssues` and `0 ≤ bugIssues ≤ openIssues`, and an issue
whose state is not `"open"` contributes to none of the three counters:
removing it from the input (wherever it sits) leaves the result unchanged. -/
theorem analyze_issue_health_invariants :
    (∀ (now : ℤ) (issues : List RawIssue) (h : IssueHealth),
      analyze_issue_health now issues = .ok h →
      0 ≤ h.stale_issues ∧ h.stale_issues ≤ h.open_issues ∧
      0 ≤ h.bug_issues ∧ h.bug_issues ≤ h.open_issues) ∧
    (∀ (now : ℤ) (xs ys : List RawIssue) (i : RawIssue) (s : String),
      i.state = some s → s ≠ "open" →
      analyze_issue_health now (xs ++ i :: ys) = analyze_issue_health now (xs ++ ys)) := by
  constructor
  · intro now issues h hok
    unfold analyze_issue_health at hok
    cases hc : healthCounts now issues with
    | error e => rw [hc] at hok; simp at hok
    | ok p =>
      obtain ⟨o, st, b⟩ := p
      rw [hc] at hok
      simp only [Except.ok.injEq] at hok
      subst hok
      exact healthCounts_bounds now issues o st b hc
  · intro now xs ys i s hi hs
    unfold analyze_issue_health
    rw [healthCounts_skip_non_open now i s hi hs xs ys]

/-- C8 witness: the theorem applied at concrete inputs — the bound part on a
single open stale bug-labeled issue, and the skip part showing a closed issue
leaves the aggregate unchanged. -/
theorem analyze_issue_health_invariants_witness :
    (0 ≤ (⟨1, 1, 1⟩ : IssueHealth).stale_issues ∧
     (⟨1, 1, 1⟩ : IssueHealth).stale_issues ≤ (⟨1, 1, 1⟩ : IssueHealth).open_issues ∧
     0 ≤ (⟨1, 1, 1⟩ : IssueHealth).bug_issues ∧
     (⟨1, 1, 1⟩ : IssueHealth).bug_issues ≤ (⟨1, 1, 1⟩ : IssueHealth).open_issues) ∧
    analyze_issue_health 100 ([] ++
        (⟨some "closed", some (.valid 0), some none, some (.valid 99), some []⟩ : RawIssue) ::
        [⟨some "open", some (.valid 0), some none, some (.valid 0),
          some [⟨some "Bug: crash"⟩]⟩]) =
      analyze_issue_health 100 ([] ++
        [⟨some "open", some (.valid 0), some none, some (.valid 0),
          some [⟨some "Bug: crash"⟩]⟩]) := by
  constructor
  · exact analyze_issue_health_invariants.1 100
      [⟨some "open", some (.valid 0), some none, some (.valid 0),
        some [⟨some "Bug: crash"⟩]⟩] ⟨1, 1, 1⟩ rfl
  · exact analyze_issue_health_invariants.2 100 []
      [⟨some "open", some (.valid 0), some none, some (.valid 0),
        some [⟨some "Bug: crash"⟩]⟩]
      ⟨some "closed", some (.valid 0), some none, some (.valid 99), some []⟩
      "closed" rfl (by decide)

theorem wellFormedTime_iff {ot : Option TimeStr} :
    wellFormedTime ot = true ↔ ∃ t, ot = some (.valid t) := by
  cases ot with
  | none => simp [wellFormedTime]
  | some ts => cases ts with
    | valid t => simp [wellFormedTime]
    | malformed => simp [wellFormedTime]

theorem bugLabelInc_ok {ls : List RawLabel} (h : ∀ l ∈ ls, l.name.isSome) :
    ∃ b, bugLabelInc ls = .ok b := by
  induction ls with
  | nil => exact ⟨0, rfl⟩
  | cons l rest ih =>
    obtain ⟨nm, hn⟩ := Option.isSome_iff_exists.mp (h l (by simp))
    simp only [bugLabelInc, hn]
    by_cases hb : containsBug nm
    · exact ⟨1, by rw [if_pos hb]⟩
    · obtain ⟨b, hbb⟩ := ih fun l' hl' => h l' (by simp [hl'])
      exact ⟨b, by rw [if_neg hb]; exact hbb⟩

theorem healthCounts_ok (now : ℤ) :
    ∀ issues : List RawIssue, (∀ i ∈ issues, wellFormedIssue i = true) →
      ∃ p, healthCounts now issues = .ok p := by
  intro issues
  induction issues with
  | nil => intro _; exact ⟨(0, 0, 0), rfl⟩
  | cons i rest ih =>
    intro h
    have hi := h i (by simp)
    simp only [wellFormedIssue, Bool.and_eq_true] at hi
    obtain ⟨⟨⟨⟨hstate, hcreated⟩, hclosed⟩, hupdated⟩, hlabels⟩ := hi
    obtain ⟨s, hs⟩ := Option.isSome_iff_exists.mp hstate
    obtain ⟨⟨o, st, b0⟩, hp⟩ := ih fun i' hi' => h i' (by simp [hi'])
    simp only [healthCounts, hs]
    by_cases hopen : s = "open"
    · rw [if_pos hopen]
      obtain ⟨u, hu⟩ := wellFormedTime_iff.mp hupdated
      rw [hu]
      dsimp only [fromiso]
      cases hl : i.labels with
      | none => rw [hl] at hlabels; simp at hlabels
      | some ls =>
        rw [hl] at hlabels
        have hnames : ∀ l ∈ ls, l.name.isSome := by
          intro l hlmem
          exact List.all_eq_true.mp hlabels l hlmem
        obtain ⟨b, hb⟩ := bugLabelInc_ok hnames
        dsimp only
        rw [hb, hp]
        exact ⟨_, rfl⟩
    · rw [if_neg hopen]
      exact ⟨(o, st, b0), hp⟩

theorem issueCounts_ok (now : ℤ) :
    ∀ issues : List RawIssue, (∀ i ∈ issues, wellFormedIssue i = true) →
      ∃ p, issueCounts now issues = .ok p := by
  intro issues
  induction issues with
  | nil => intro _; exact ⟨(0, 0), rfl⟩
  | cons i rest ih =>
    intro h
    have hi := h i (by simp)
    simp only [wellFormedIssue, Bool.and_eq_true] at hi
    obtain ⟨⟨⟨⟨hstate, hcreated⟩, hclosed⟩, hupdated⟩, hlabels⟩ := hi
    obtain ⟨t, ht⟩ := wellFormedTime_iff.mp hcreated
    obtain ⟨⟨n, c⟩, hp⟩ := ih fun i' hi' => h i' (by simp [hi'])
    simp only [issueCounts, ht]
    dsimp only [fromiso]
    cases hc : i.closed_at with
    | none => rw [hc] at hclosed; simp [wellFormedClosed] at hclosed
    | some cv =>
      rw [hc] at hclosed
      cases cv with
      | none =>
        dsimp only
        rw [hp]
        exact ⟨_, rfl⟩
      | some cts =>
        cases cts with
        | valid tc =>
          dsimp only [fromiso]
          rw [hp]
          exact ⟨_, rfl⟩
        | malformed => simp [wellFormedClosed] at hclosed

theorem formatLoop_ok :
    ∀ cd : List RawContributor,
      (∀ c ∈ cd, c.login.isSome ∧ c.contributions.isSome) →
      ∃ r, formatLoop cd = .ok r := by
  intro cd
  induction cd with
  | nil => intro _; exact ⟨[], rfl⟩
  | cons c rest ih =>
    intro h
    obtain ⟨hl, hc⟩ := h c (by simp)
    obtain ⟨l, hl2⟩ := Option.isSome_iff_exists.mp hl
    obtain ⟨n, hn2⟩ := Option.isSome_iff_exists.mp hc
    obtain ⟨r, hr⟩ := ih fun c' h' => h c' (by simp [h'])
    refine ⟨⟨l, n⟩ :: r, ?_⟩
    simp only [formatLoop, hl2, hn2, hr]

/-- C1 counterexample: the activity aggregator does raise to its caller on an
issue record whose creation timestamp is malformed — the uncaught
`ValueError` from `datetime.fromisoformat` propagates, contradicting the
claim that no core component ever raises. -/
theorem calculate_activity_trends_raises_on_malformed :
    calculate_activity_trends 0 []
      [⟨some "open", some .malformed, some none, some (.valid 0), some []⟩] =
      .error () := rfl

/-- C1 (amended): the health scorer never raises for any input (its
timestamp parse is wrapped in `try/except` and its divisions are guarded),
and the line-oriented parser is total by construction; the structured parser
returns normally on a json parse failure or on an object whose dependency
fields are mappings, but raises on valid non-object JSON
(`AttributeError` at `data.get`) and on a non-mapping dependency field
(`TypeError` at the dict merge), and that exception propagates out of the
dependency aggregator; the activity aggregator, the issue-health aggregator
and the contributor formatter never raise on well-formed records — but they
do propagate an error on records with malformed or missing timestamps,
fields or labels (see the counterexample). -/
theorem core_raises_only_on_malformed_records :
    (∀ (now : ℤ) (repo : RepoData) (activity : ActivityTrends) (issues : IssueHealth),
      calculate_health_score now repo activity issues =
        .ok (scoreVal now repo activity issues)) ∧
    (∀ pj : PackageJsonParse, wellShapedJson pj = true →
      ∃ ds, parse_package_json pj = .ok ds) ∧
    (∀ (rt : Option (List Char)) (pj : Option PackageJsonParse),
      (∀ p, pj = some p → wellShapedJson p = true) →
      ∃ rs, analyze_dependencies ⟨rt, pj⟩ = .ok rs) ∧
    (∀ rt : Option (List Char),
      analyze_dependencies ⟨rt, some .nonObject⟩ = .error ()) ∧
    (∀ (now : ℤ) (ca : List CommitWeek) (issues : List RawIssue),
      (∀ i ∈ issues, wellFormedIssue i = true) →
      ∃ r, calculate_activity_trends now ca issues = .ok r) ∧
    (∀ (now : ℤ) (issues : List RawIssue),
      (∀ i ∈ issues, wellFormedIssue i = true) →
      ∃ h, analyze_issue_health now issues = .ok h) ∧
    (∀ cd : List RawContributor,
      (∀ c ∈ cd, c.login.isSome ∧ c.contributions.isSome) →
      ∃ r, format_contributors cd = .ok r) := by
  have hjson : ∀ pj : PackageJsonParse, wellShapedJson pj = true →
      ∃ ds, parse_package_json pj = .ok ds := by
    intro pj h
    cases pj with
    | failure => exact ⟨[], rfl⟩
    | nonObject => simp [wellShapedJson] at h
    | object d e =>
      cases d with
      | nonMapping => simp [wellShapedJson] at h
      | mapping dm =>
        cases e with
        | nonMapping => simp [wellShapedJson] at h
        | mapping em => exact ⟨_, rfl⟩
  refine ⟨calculate_health_score_eq_ok, hjson, ?_, ?_, ?_, ?_, ?_⟩
  · intro rt pj h
    cases pj with
    | none => exact ⟨_, rfl⟩
    | some p =>
      obtain ⟨ds, hds⟩ := hjson p (h p rfl)
      exact ⟨requirementsReports rt ++
        (if ds.isEmpty then [] else [⟨"package.json", ds⟩]),
        by unfold analyze_dependencies; dsimp only; rw [hds]⟩
  · intro rt
    rfl
  · intro now ca issues h
    obtain ⟨⟨n, c⟩, hp⟩ := issueCounts_ok now issues h
    exact ⟨_, by unfold calculate_activity_trends; rw [hp]⟩
  · intro now issues h
    obtain ⟨⟨o, st, b⟩, hp⟩ := healthCounts_ok now issues h
    exact ⟨⟨o, st, b⟩, by unfold analyze_issue_health; rw [hp]⟩
  · intro cd h
    have := formatLoop_ok (cd.take 5) fun c hc => h c (List.take_subset 5 cd hc)
    simpa [format_contributors] using this

/-- C1 witness: the hypothesis-carrying parts of the theorem applied at
concrete well-shaped and well-formed inputs. -/
theorem core_raises_only_on_malformed_records_witness :
    (∃ ds, parse_package_json
      (.object (.mapping [("a", "1.0")]) (.mapping [])) = .ok ds) ∧
    (∃ rs, analyze_dependencies
      ⟨none, some (.object (.mapping [("a", "1.0")]) (.mapping []))⟩ = .ok rs) ∧
    (∃ r, calculate_activity_trends 0 []
      [⟨some "open", some (.valid 0), some none, some (.valid 0), some []⟩] = .ok r) ∧
    (∃ h, analyze_issue_health 0
      [⟨some "open", some (.valid 0), some none, some (.valid 0), some []⟩] = .ok h) ∧
    (∃ r, format_contributors [⟨some "alice", some 10⟩] = .ok r) :=
  ⟨core_raises_only_on_malformed_records.2.1
      (.object (.mapping [("a", "1.0")]) (.mapping [])) rfl,
   core_raises_only_on_malformed_records.2.2.1 none
      (some (.object (.mapping [("a", "1.0")]) (.mapping [])))
      (fun p hp => by cases hp; rfl),
   core_raises_only_on_malformed_records.2.2.2.2.1 0 []
      [⟨some "open", some (.valid 0), some none, some (.valid 0), some []⟩] (by decide),
   core_raises_only_on_malformed_records.2.2.2.2.2.1 0
      [⟨some "open", some (.valid 0), some none, some (.valid 0), some []⟩] (by decide),
   core_raises_only_on_malformed_records.2.2.2.2.2.2 [⟨some "alice", some 10⟩] (by decide)⟩

theorem takeWhile_append_all (p : Char → Bool) :
    ∀ l1 l2 : List Char, (∀ c ∈ l1, p c = true) →
      (∀ c, l2.head? = some c → p c = false) →
      (l1 ++ l2).takeWhile p = l1 := by
  intro l1
  induction l1 with
  | nil =>
    intro l2 _ h2
    cases l2 with
    | nil => rfl
    | cons c cs => simp [List.takeWhile_cons, h2 c rfl]
  | cons a as ih =>
    intro l2 h1 h2
    simp [List.cons_append, List.takeWhile_cons, h1 a (by simp),
      ih l2 (fun c hc => h1 c (by simp [hc])) h2]

theorem takeWhile_all (p : Char → Bool) (l : List Char) (h : ∀ c ∈ l, p c = true) :
    l.takeWhile p = l := by
  have h2 : ∀ c, ([] : List Char).head? = some c → p c = false := by
    intro c hc
    simp at hc
  have := takeWhile_append_all p l [] h h2
  simpa using this

theorem dropWhile_head_false (p : Char → Bool) (l : List Char)
    (h : ∀ c, l.head? = some c → p c = false) : l.dropWhile p = l := by
  cases l with
  | nil => rfl
  | cons a as => simp [List.dropWhile_cons, h a rfl]

theorem stripChars_eq_self {l : List Char} (h : ∀ c ∈ l, c.isWhitespace = false) :
    stripChars l = l := by
  unfold stripChars
  rw [dropWhile_head_false _ l fun c hc => h c (List.mem_of_mem_head? hc)]
  rw [dropWhile_head_false _ l.reverse fun c hc =>
    h c (by simpa using List.mem_of_mem_head? hc)]
  exact List.reverse_reverse l

theorem isNameChar_not_ws {c : Char} (h : isNameChar c = true) : c.isWhitespace = false := by
  by_contra hc
  rw [Bool.not_eq_false] at hc
  have hd : c = ' ' ∨ c = '\t' ∨ c = '\r' ∨ c = '\n' := by
    simpa [Char.isWhitespace, or_assoc] using hc
  rcases hd with h1 | h1 | h1 | h1 <;> subst h1 <;> exact absurd h (by decide)

theorem isVerChar_not_ws {c : Char} (h : isVerChar c = true) : c.isWhitespace = false := by
  by_contra hc
  rw [Bool.not_eq_false] at hc
  have hd : c = ' ' ∨ c = '\t' ∨ c = '\r' ∨ c = '\n' := by
    simpa [Char.isWhitespace, or_assoc] using hc
  rcases hd with h1 | h1 | h1 | h1 <;> subst h1 <;> exact absurd h (by decide)

theorem isOpChar_not_name {c : Char} (h : isOpChar c = true) : isNameChar c = false := by
  have hd : c = '=' ∨ c = '~' ∨ c = '>' := by simpa [isOpChar, or_assoc] using h
  rcases hd with h1 | h1 | h1 <;> subst h1 <;> decide

theorem isOpChar_not_ws {c : Char} (h : isOpChar c = true) : c.isWhitespace = false := by
  have hd : c = '=' ∨ c = '~' ∨ c = '>' := by simpa [isOpChar, or_assoc] using h
  rcases hd with h1 | h1 | h1 <;> subst h1 <;> decide

theorem isVerChar_not_op {c : Char} (h : isVerChar c = true) : isOpChar c = false := by
  by_contra hc
  rw [Bool.not_eq_false] at hc
  have hd : c = '=' ∨ c = '~' ∨ c = '>' := by simpa [isOpChar, or_assoc] using hc
  rcases hd with h1 | h1 | h1 <;> subst h1 <;> exact absurd h (by decide)

theorem isNameChar_ne_hash {c : Char} (h : isNameChar c = true) : c ≠ '#' := by
  intro hc
  subst hc
  exact absurd h (by decide)

theorem matchDep_name_op_ver (name op ver : List Char)
    (hn : name ≠ []) (hnc : ∀ c ∈ name, isNameChar c = true)
    (hoc : ∀ c ∈ op, isOpChar c = true) (hlen : op.length = 1 ∨ op.length = 2)
    (hv : ver ≠ []) (hvc : ∀ c ∈ ver, isVerChar c = true) :
    matchDep (name ++ op ++ ver) = some ⟨name.asString, ver.asString⟩ := by
  have hop : op ≠ [] := by
    intro hc
    subst hc
    simp at hlen
  have hname_tw : (name ++ (op ++ ver)).takeWhile isNameChar = name := by
    apply takeWhile_append_all _ _ _ hnc
    intro c hc
    cases op with
    | nil => exact absurd rfl hop
    | cons a as =>
      simp only [List.cons_append, List.head?_cons, Option.some.injEq] at hc
      subst hc
      exact isOpChar_not_name (hoc a (by simp))
  have hops_tw : (op ++ ver).takeWhile isOpChar = op := by
    apply takeWhile_append_all _ _ _ hoc
    intro c hc
    cases ver with
    | nil => exact absurd rfl hv
    | cons a as =>
      simp only [List.head?_cons, Option.some.injEq] at hc
      subst hc
      exact isVerChar_not_op (hvc a (by simp))
  have hne : name.isEmpty = false := by simpa [List.isEmpty_iff] using hn
  have hve : ver.isEmpty = false := by simpa [List.isEmpty_iff] using hv
  unfold matchDep
  rw [List.append_assoc, hname_tw]
  simp only [hne, Bool.false_eq_true, if_false, List.drop_left, hops_tw,
    takeWhile_all isVerChar ver hvc]
  rcases hlen with hl | hl <;> simp [hl, hve]

theorem matchDep_lt (name rest2 : List Char)
    (hn : name ≠ []) (hnc : ∀ c ∈ name, isNameChar c = true)
    (hlt : rest2.head? = some '<') :
    matchDep (name ++ rest2) = some ⟨name.asString, "latest"⟩ := by
  have hname_tw : (name ++ rest2).takeWhile isNameChar = name := by
    apply takeWhile_append_all _ _ _ hnc
    intro c hc
    rw [hlt] at hc
    injection hc with hc
    subst hc
    decide
  have hops_tw : rest2.takeWhile isOpChar = [] := by
    cases rest2 with
    | nil => rfl
    | cons a as =>
      injection hlt with hlt
      subst hlt
      rw [List.takeWhile_cons, if_neg (by decide)]
  have hne : name.isEmpty = false := by simpa [List.isEmpty_iff] using hn
  unfold matchDep
  rw [hname_tw]
  simp [hne, List.drop_left, hops_tw]

theorem matchDep_trailing_ops (name op : List Char)
    (hn : name ≠ []) (hnc : ∀ c ∈ name, isNameChar c = true)
    (hoc : ∀ c ∈ op, isOpChar c = true) :
    matchDep (name ++ op) = some ⟨name.asString, "latest"⟩ := by
  have hname_tw : (name ++ op).takeWhile isNameChar = name := by
    apply takeWhile_append_all _ _ _ hnc
    intro c hc
    cases op with
    | nil => simp at hc
    | cons a as =>
      simp only [List.head?_cons, Option.some.injEq] at hc
      subst hc
      exact isOpChar_not_name (hoc a (by simp))
  have hne : name.isEmpty = false := by simpa [List.isEmpty_iff] using hn
  unfold matchDep
  rw [hname_tw]
  simp [hne, List.drop_left, takeWhile_all isOpChar op hoc, List.drop_length]

theorem processLine_eq_matchDep (cs : List Char) (hws : ∀ c ∈ cs, c.isWhitespace = false)
    (hne : cs ≠ []) (hhash : ∀ c, cs.head? = some c → c ≠ '#') :
    processLine cs = matchDep cs := by
  unfold processLine
  rw [stripChars_eq_self hws]
  have h1 : cs.isEmpty = false := by simpa [List.isEmpty_iff] using hne
  rw [if_neg (by simp [h1])]
  cases cs with
  | nil => exact absurd rfl hne
  | cons a as =>
    rw [if_neg (by simp; exact hhash a rfl)]

theorem processLine_name_leading (name rest2 : List Char)
    (hn : name ≠ []) (hnc : ∀ c ∈ name, isNameChar c = true)
    (hws : ∀ c ∈ rest2, c.isWhitespace = false) :
    processLine (name ++ rest2) = matchDep (name ++ rest2) := by
  apply processLine_eq_matchDep
  · intro c hc
    rcases List.mem_append.mp hc with h | h
    · exact isNameChar_not_ws (hnc c h)
    · exact hws c h
  · intro hc
    exact hn (List.append_eq_nil.mp hc).1
  · intro c hc
    cases name with
    | nil => exact absurd rfl hn
    | cons a as =>
      simp only [List.cons_append, List.head?_cons, Option.some.injEq] at hc
      subst hc
      exact isNameChar_ne_hash (hnc a (by simp))

/-- C4 counterexample: the operators `<` and `<=` are not in the source's
operator class `[=~>]`, so the line `flask<=2.0.1` parses to version
`"latest"`, not `"2.0.1"` as the claim requires. -/
theorem processLine_le_op_refuted :
    processLine "flask<=2.0.1".toList = some ⟨"flask", "latest"⟩ ∧
    processLine "flask<=2.0.1".toList ≠ some ⟨"flask", "2.0.1"⟩ := by
  constructor
  · decide
  · decide

/-- C4 (amended): a manifest line `name` + operator + `version` yields the
dependency `(name, version)` for the operators the source's regex actually
accepts — `==`, `~=`, `>=`, `=`, `>` — but for `<` and `<=`, which are not
in the source's operator class, the version is ignored and the line yields
`(name, "latest")`; a line holding only the name token also yields
`(name, "latest")`. -/
theorem processLine_versioned_lines (name op ver : List Char)
    (hn : name ≠ []) (hnc : ∀ c ∈ name, isNameChar c = true)
    (hv : ver ≠ []) (hvc : ∀ c ∈ ver, isVerChar c = true) :
    (op = ['='] ∨ op = ['>'] ∨ op = ['=', '='] ∨ op = ['~', '='] ∨ op = ['>', '='] →
      processLine (name ++ op ++ ver) = some ⟨name.asString, ver.asString⟩) ∧
    (op = ['<'] ∨ op = ['<', '='] →
      processLine (name ++ op ++ ver) = some ⟨name.asString, "latest"⟩) ∧
    processLine name = some ⟨name.asString, "latest"⟩ := by
  refine ⟨?_, ?_, ?_⟩
  · intro hop
    have hoc : ∀ c ∈ op, isOpChar c = true := by
      rcases hop with h | h | h | h | h <;> subst h <;> decide
    have hlen : op.length = 1 ∨ op.length = 2 := by
      rcases hop with h | h | h | h | h <;> subst h <;> simp
    have hws2 : ∀ c ∈ op ++ ver, c.isWhitespace = false := by
      intro c hc
      rcases List.mem_append.mp hc with h | h
      · exact isOpChar_not_ws (hoc c h)
      · exact isVerChar_not_ws (hvc c h)
    rw [List.append_assoc, processLine_name_leading name (op ++ ver) hn hnc hws2,
      ← List.append_assoc]
    exact matchDep_name_op_ver name op ver hn hnc hoc hlen hv hvc
  · intro hop
    have hlt : (op ++ ver).head? = some '<' := by
      rcases hop with h | h <;> subst h <;> rfl
    have hws2 : ∀ c ∈ op ++ ver, c.isWhitespace = false := by
      intro c hc
      rcases List.mem_append.mp hc with h | h
      · rcases hop with h2 | h2 <;> subst h2 <;> simp at h <;>
          first
          | (subst h; decide)
          | (rcases h with h | h <;> subst h <;> decide)
      · exact isVerChar_not_ws (hvc c h)
    rw [List.append_assoc, processLine_name_leading name (op ++ ver) hn hnc hws2]
    exact matchDep_lt name (op ++ ver) hn hnc hlt
  · have := processLine_name_leading name [] hn hnc (by intro c hc; simp at hc)
    rw [List.append_nil] at this
    rw [this]
    have := matchDep_trailing_ops name [] hn hnc (by intro c hc; simp at hc)
    rw [List.append_nil] at this
    exact this

/-- C4 witness: the amended theorem applied at the concrete line
`flask==2.0.1`. -/
theorem processLine_versioned_lines_witness :
    processLine ("flask".toList ++ ['=', '='] ++ "2.0.1".toList) =
      some ⟨"flask".toList.asString, "2.0.1".toList.asString⟩ :=
  (processLine_versioned_lines "flask".toList ['=', '='] "2.0.1".toList
    (by decide) (by decide) (by decide) (by decide)).1 (by simp)

/-- C10: a manifest line holding a name immediately followed by a
version-comparison operator with no version token after it yields
`(name, "latest")`, exactly as if the operator were absent. -/
theorem processLine_operator_no_version (name : List Char)
    (hn : name ≠ []) (hnc : ∀ c ∈ name, isNameChar c = true) :
    (∀ op ∈ [['='], ['>'], ['<'], ['=', '='], ['~', '='], ['>', '='], ['<', '=']],
      processLine (name ++ op) = some ⟨name.asString, "latest"⟩) ∧
    processLine name = some ⟨name.asString, "latest"⟩ := by
  constructor
  · intro op hop
    have hws : ∀ c ∈ op, c.isWhitespace = false := by
      simp only [List.mem_cons, List.mem_singleton, List.not_mem_nil, or_false] at hop
      rcases hop with h | h | h | h | h | h | h <;> subst h <;> decide
    rw [processLine_name_leading name op hn hnc hws]
    simp only [List.mem_cons, List.mem_singleton, List.not_mem_nil, or_false] at hop
    rcases hop with h | h | h | h | h | h | h <;> subst h
    · exact matchDep_trailing_ops name ['='] hn hnc (by decide)
    · exact matchDep_trailing_ops name ['>'] hn hnc (by decide)
    · exact matchDep_lt name ['<'] hn hnc rfl
    · exact matchDep_trailing_ops name ['=', '='] hn hnc (by decide)
    · exact matchDep_trailing_ops name ['~', '='] hn hnc (by decide)
    · exact matchDep_trailing_ops name ['>', '='] hn hnc (by decide)
    · exact matchDep_lt name ['<', '='] hn hnc rfl
  · have h1 := processLine_name_leading name [] hn hnc (by intro c hc; simp at hc)
    rw [List.append_nil] at h1
    rw [h1]
    have h2 := matchDep_trailing_ops name [] hn hnc (by intro c hc; simp at hc)
    rw [List.append_nil] at h2
    exact h2

/-- C10 witness: the theorem applied at the concrete line `flask==`. -/
theorem processLine_operator_no_version_witness :
    processLine ("flask".toList ++ ['=', '=']) =
      some ⟨"flask".toList.asString, "latest"⟩ :=
  (processLine_operator_no_version "flask".toList (by decide) (by decide)).1
    ['=', '='] (by simp)

theorem dictLookup_eq_some_of_nodup (e : List (String × String)) (a v : String)
    (he : (e.map Prod.fst).Nodup) (hm : (a, v) ∈ e) :
    dictLookup a e = some v := by
  induction e with
  | nil => simp at hm
  | cons p rest ih =>
    simp only [List.map_cons, List.nodup_cons] at he
    obtain ⟨hp, hrest⟩ := he
    simp only [dictLookup]
    by_cases hk : p.1 = a
    · rw [if_pos hk]
      rcases List.mem_cons.mp hm with h1 | h1
      · rw [← h1]
      · exfalso
        apply hp
        rw [hk]
        exact List.mem_map.mpr ⟨(a, v), h1, rfl⟩
    · rw [if_neg hk]
      rcases List.mem_cons.mp hm with h1 | h1
      · exact absurd (by rw [← h1]) hk
      · exact ih hrest h1

theorem dictLookup_isSome_of_mem (d : List (String × String)) (a v : String)
    (hm : (a, v) ∈ d) : (dictLookup a d).isSome = true := by
  induction d with
  | nil => simp at hm
  | cons p rest ih =>
    simp only [dictLookup]
    by_cases hk : p.1 = a
    · rw [if_pos hk]
      rfl
    · rw [if_neg hk]
      rcases List.mem_cons.mp hm with h1 | h1
      · exact absurd (by rw [← h1]) hk
      · exact ih h1

theorem countP_key_eq_one (d : List (String × String)) (a v : String)
    (hd : (d.map Prod.fst).Nodup) (hm : (a, v) ∈ d) :
    d.countP (fun p => p.1 = a) = 1 := by
  induction d with
  | nil => simp at hm
  | cons q rest ih =>
    simp only [List.map_cons, List.nodup_cons] at hd
    obtain ⟨hq, hrest⟩ := hd
    rcases List.mem_cons.mp hm with h1 | h1
    · have hqa : q.1 = a := by rw [← h1]
      have hzero : rest.countP (fun p => p.1 = a) = 0 := by
        rw [List.countP_eq_zero]
        intro p hp
        simp only [decide_eq_true_eq]
        intro hpa
        apply hq
        rw [hqa, ← hpa]
        exact List.mem_map.mpr ⟨p, hp, rfl⟩
      rw [List.countP_cons, hzero]
      simp [hqa]
    · have hqa : q.1 ≠ a := by
        intro hc
        apply hq
        rw [hc]
        exact List.mem_map.mpr ⟨(a, v), h1, rfl⟩
      rw [List.countP_cons, ih hrest h1]
      simp [hqa]

/-- C6: when a name appears in both the direct-dependency mapping and the
development-dependency mapping, the parsed output contains exactly one
`Dependency` with that name, and it carries the development-dependency
version (dev overrides direct, last-merged wins). -/
theorem parse_package_json_dev_overrides
    (deps devDeps : List (String × String)) (a v1 v2 : String)
    (hd : (deps.map Prod.fst).Nodup) (he : (devDeps.map Prod.fst).Nodup)
    (h1 : (a, v1) ∈ deps) (h2 : (a, v2) ∈ devDeps) :
    ∃ ds, parse_package_json (.object (.mapping deps) (.mapping devDeps)) = .ok ds ∧
      ds.countP (fun dep => dep.name = a) = 1 ∧ (⟨a, v2⟩ : Dependency) ∈ ds := by
  have hlook2 : dictLookup a devDeps = some v2 := dictLookup_eq_some_of_nodup _ _ _ he h2
  refine ⟨(dictMerge deps devDeps).map fun p => (⟨p.1, p.2⟩ : Dependency), ?_, ?_, ?_⟩
  · rfl
  · unfold dictMerge
    rw [List.countP_map, List.countP_append, List.countP_map]
    have hpart1 : deps.countP
        (((fun dep => decide (dep.name = a)) ∘ fun p => (⟨p.1, p.2⟩ : Dependency)) ∘
          fun p => match dictLookup p.1 devDeps with
            | some v => (p.1, v)
            | none => p) = 1 := by
      have hcg : deps.countP
          (((fun dep => decide (dep.name = a)) ∘ fun p => (⟨p.1, p.2⟩ : Dependency)) ∘
            fun p => match dictLookup p.1 devDeps with
              | some v => (p.1, v)
              | none => p) =
          deps.countP fun p => decide (p.1 = a) := by
        apply List.countP_congr
        intro p hp
        cases hl : dictLookup p.1 devDeps with
        | none => simp [Function.comp, hl]
        | some v => simp [Function.comp, hl]
      rw [hcg]
      exact countP_key_eq_one deps a v1 hd h1
    have hpart2 : (devDeps.filter fun p => (dictLookup p.1 deps).isNone).countP
        ((fun dep => decide (dep.name = a)) ∘ fun p => (⟨p.1, p.2⟩ : Dependency)) = 0 := by
      rw [List.countP_eq_zero]
      intro p hp
      have hmem := List.mem_filter.mp hp
      simp only [Function.comp, decide_eq_true_eq]
      intro hpa
      have hsome := dictLookup_isSome_of_mem deps a v1 h1
      rw [← hpa] at hsome
      have hnone : dictLookup p.1 deps = none := by
        simpa using hmem.2
      rw [hnone] at hsome
      exact absurd hsome (by simp)
    rw [hpart1, hpart2]
  · unfold dictMerge
    rw [List.mem_map]
    refine ⟨(a, v2), ?_, rfl⟩
    rw [List.mem_append]
    left
    rw [List.mem_map]
    refine ⟨(a, v1), h1, ?_⟩
    show (match dictLookup a devDeps with
      | some v => (a, v)
      | none => (a, v1)) = (a, v2)
    rw [hlook2]

/-- C6 witness: the theorem applied at the concrete manifest with direct
dependencies `{"a": "1.0"}` and development dependencies `{"a": "2.0"}`. -/
theorem parse_package_json_dev_overrides_witness :
    ∃ ds, parse_package_json
        (.object (.mapping [("a", "1.0")]) (.mapping [("a", "2.0")])) = .ok ds ∧
      ds.countP (fun dep => dep.name = "a") = 1 ∧ (⟨"a", "2.0"⟩ : Dependency) ∈ ds :=
  parse_package_json_dev_overrides [("a", "1.0")] [("a", "2.0")] "a" "1.0" "2.0"
    (by simp) (by simp) (by simp) (by simp)

